import Mathlib

/-!
Verification development for the forest-benchmarking process-tomography core.

The repository's shipped sources are example notebooks; the library functions
they call (`kraus2choi`, `choi2kraus`, `choi2pauli_liouville`, the physical
projector and `pgdb_process_estimate`) are not part of the shipped source
tree, so those components are modelled from the specification.  Functions that
do appear verbatim in the notebooks (`depolarizing_noise`'s probability list,
`insert_noise`, `add_noise_to_sequences`) are embedded directly from that code.

Machine floating-point arithmetic is embedded as exact arithmetic over
`ℚ`/`ℝ`/`ℂ`; external numerical eigendecompositions are passed to the
definitions as explicit data together with the algebraic property that makes
them an eigendecomposition.
-/

open scoped ComplexOrder
open scoped Matrix

namespace Forest

/-- A `d × d` complex operator (a state or a Kraus operator on `n` qubits,
`d = 2 ^ n`). -/
abbrev Op (d : ℕ) := Matrix (Fin d) (Fin d) ℂ

/-- A superoperator in Choi form: a `d² × d²` complex matrix, indexed by pairs
so that the row index `(i, j)` stands for the basis element `|i⟩⟨j|`. -/
abbrev SOp (d : ℕ) := Matrix (Fin d × Fin d) (Fin d × Fin d) ℂ

/-- Column-stacking vectorization of an operator. -/
def vec {d : ℕ} (K : Op d) : Fin d × Fin d → ℂ := fun p => K p.1 p.2

/-- Inverse of `vec`: reshape a `d²` vector into a `d × d` operator. -/
def unvec {d : ℕ} (w : Fin d × Fin d → ℂ) : Op d := Matrix.of fun i j => w (i, j)

/-- Modelled from the spec: `kraus2choi` (forest.benchmarking.superoperator_tools,
not in the shipped sources).  The Choi matrix of a channel given by a Kraus set
is the sum of the outer products `vec K · (vec K)†`. -/
def kraus2choi {d : ℕ} (Ks : List (Op d)) : SOp d :=
  (Ks.map fun K => Matrix.vecMulVec (vec K) (star (vec K))).sum

/-- `dec` is an eigenpair list realizing `M`: `M = Σᵢ λᵢ · vᵢ vᵢ†`.  The
eigendecomposition itself is produced by an external numerical routine; only
this algebraic property of it is used. -/
def DecompOf {d : ℕ} (M : SOp d) (dec : List (ℝ × (Fin d × Fin d → ℂ))) : Prop :=
  (dec.map fun p => ((p.1 : ℝ) : ℂ) • Matrix.vecMulVec p.2 (star p.2)).sum = M

/-- One output Kraus operator of `choi2kraus` for the eigenpair `p`: the
eigenvector, reshaped to an operator and scaled by the square root `s` of the
eigenvalue (characterized by `0 ≤ s` and `s ^ 2 = p.1`). -/
def KrausOfPair {d : ℕ} (p : ℝ × (Fin d × Fin d → ℂ)) (K : Op d) : Prop :=
  ∃ s : ℝ, 0 ≤ s ∧ s ^ 2 = p.1 ∧ K = unvec (((s : ℝ) : ℂ) • p.2)

/-- Modelled from the spec: `choi2kraus` (not in the shipped sources) is an
eigendecomposition of the Choi matrix with each surviving eigenvector scaled by
the square root of its eigenvalue.  In exact arithmetic the numerical-zero
discard threshold is `0`, and a discarded zero eigenpair contributes the zero
operator, so the characterization keeps every pair. -/
def IsChoi2KrausOutput {d : ℕ} (C : SOp d) (Ks : List (Op d)) : Prop :=
  ∃ dec, DecompOf C dec ∧ List.Forall₂ KrausOfPair dec Ks

end Forest

namespace Forest

/-- Partial trace of a Choi matrix over the output (second) subsystem. -/
noncomputable def ptr2 {d : ℕ} (C : SOp d) : Op d :=
  Matrix.of fun i k => ∑ j, C (i, j) (k, j)

/-- `A ⊗ I`: embed an input-space operator along the identity on the output
space. -/
def embedIn {d : ℕ} (A : Op d) : SOp d :=
  Matrix.of fun p q => if p.2 = q.2 then A p.1 q.1 else 0

/-- Modelled from the spec: step (1) of the Physical Projector (not in the
shipped sources) — the exact linear projection onto the trace-preserving
affine subspace, removing the deficiency of the output partial trace. -/
noncomputable def tpProj {d : ℕ} (C : SOp d) : SOp d :=
  C - ((d : ℂ))⁻¹ • embedIn (ptr2 C - 1)

/-- Modelled from the spec: step (2) of the Physical Projector (not in the
shipped sources) — the PSD projection: eigen-decompose (the decomposition is
supplied by the external numerical routine as `dec`), clip negative
eigenvalues to zero, reassemble. -/
def clipDecomp {d : ℕ} (dec : List (ℝ × (Fin d × Fin d → ℂ))) : SOp d :=
  (dec.map fun p => ((max p.1 0 : ℝ) : ℂ) • Matrix.vecMulVec p.2 (star p.2)).sum

/-- Concrete singleton eigenpair list (eigenvalue `1`, constant eigenvector)
used in witnesses at `d = 1`. -/
def oneEigList : List (ℝ × (Fin 1 × Fin 1 → ℂ)) := [(1, fun _ => 1)]

/-- Concrete Hermitian, trace-preserving, non-PSD candidate Choi matrix at
`d = 2`: diagonal with entries `2, -1, 2, -1`. -/
def c2Input : SOp 2 :=
  Matrix.of fun p q => if p = q then (if p.2 = 0 then 2 else -1) else 0

/-- Eigendecomposition of `c2Input` along the standard basis vectors. -/
def c2Dec : List (ℝ × (Fin 2 × Fin 2 → ℂ)) :=
  [(2, fun q => if q = (0, 0) then 1 else 0),
   (-1, fun q => if q = (0, 1) then 1 else 0),
   (2, fun q => if q = (1, 0) then 1 else 0),
   (-1, fun q => if q = (1, 1) then 1 else 0)]

/-- Probability list built inside `depolarizing_noise`
(src/examples/randomized_benchmarking_unitarity.ipynb):
`[p+(1.0-p)/num_of_operators] + [(1.0-p)/num_of_operators]*(num_of_operators-1)`
with `num_of_operators = 4**num_qubits`.  The list is handed to pyquil's
`pauli_kraus_map` (external); its construction is what is embedded here. -/
def depolarizing_noise_probabilities (num_qubits : ℕ) (p : ℚ) : List ℚ :=
  let num_of_operators : ℕ := 4 ^ num_qubits
  [p + (1 - p) / (num_of_operators : ℚ)] ++
    List.replicate (num_of_operators - 1) ((1 - p) / (num_of_operators : ℚ))

/-- Error taxonomy of the core (spec section 7). -/
inductive TomoError where
  | shapeError
  | notHermitianError
  | emptyExperimentError
  | dimensionMismatch
  deriving DecidableEq

/-- `n` is a power of two (the valid operator dimensions are `2 ^ k`). -/
def isPow2 (n : ℕ) : Bool :=
  (List.range (n + 1)).any fun k => n == 2 ^ k

/-- A tomography setting: input-state and measurement operators (labels are
resolved to concrete matrices by an external basis table), the observed
expectation value and its variance. -/
structure Setting (d : ℕ) where
  prep : Op d
  meas : Op d
  expectation : ℝ
  variance : ℝ

/-- Modelled from the spec: the cached per-setting linear functional matrix of
the Linear Observation Model (not in the shipped sources): pairing it
entrywise with a Choi matrix yields the predicted expectation
`Tr[meas · Λ(prep)]`. -/
def settingFunctional {d : ℕ} (s : Setting d) : SOp d :=
  Matrix.of fun p q => s.prep p.1 q.1 * s.meas q.2 p.2

/-- Entrywise pairing `Σₐ Σ_b G a b · C a b` of a functional matrix with a
candidate Choi matrix. -/
noncomputable def pairing {d : ℕ} (G C : SOp d) : ℂ :=
  ∑ a, ∑ b, G a b * C a b

/-- The built Linear Observation Model: the settings with their cached
functionals. -/
structure ObsModel (d : ℕ) where
  settings : List (Setting d)
  functionals : List (SOp d)

/-- Modelled from the spec: building the Linear Observation Model fails with
`EmptyExperimentError` on zero settings and otherwise caches one functional
matrix per setting. -/
def buildObservationModel {d : ℕ} (settings : List (Setting d)) :
    Except TomoError (ObsModel d) :=
  match settings with
  | [] => .error .emptyExperimentError
  | ss => .ok ⟨ss, ss.map settingFunctional⟩

/-- Predicted expectation value of a setting under a candidate Choi matrix. -/
noncomputable def predicted {d : ℕ} (C : SOp d) (s : Setting d) : ℂ :=
  pairing (settingFunctional s) C

/-- Residual (predicted minus observed) of one setting. -/
noncomputable def residual {d : ℕ} (C : SOp d) (s : Setting d) : ℂ :=
  predicted C s - (s.expectation : ℂ)

/-- Modelled from the spec: the sum-of-squared-residuals loss of the
Estimator. -/
noncomputable def objective {d : ℕ} (settings : List (Setting d)) (C : SOp d) : ℝ :=
  (settings.map fun s => Complex.normSq (residual C s)).sum

/-- Modelled from the spec: the Hermitian gradient matrix of the loss — a
residual-weighted combination of the cached functionals, symmetrized. -/
noncomputable def gradientM {d : ℕ} (settings : List (Setting d)) (C : SOp d) :
    SOp d :=
  (settings.map fun s => residual C s • settingFunctional s).sum +
    ((settings.map fun s => residual C s • settingFunctional s).sum)ᴴ

/-- Action of a Choi matrix on a state: `Λ(ρ) j l = Σᵢ Σ_k ρ i k C (i,j) (k,l)`. -/
noncomputable def applyChoi {d : ℕ} (C : SOp d) (ρ : Op d) : Op d :=
  Matrix.of fun j l => ∑ i, ∑ k, ρ i k * C (i, j) (k, l)

/-- Modelled from the spec: `choi2pauli_liouville` (not in the shipped
sources) — the linear basis-dependent transform, with the operator basis
supplied by the caller: entry `(a, b)` is `(1/d) Tr[Bₐᴴ Λ(B_b)]`. -/
noncomputable def choi2pauli_liouville {d : ℕ} (basis : List (Op d)) (C : SOp d) :
    Matrix (Fin basis.length) (Fin basis.length) ℂ :=
  Matrix.of fun a b =>
    ((d : ℂ))⁻¹ * Matrix.trace ((basis.get a)ᴴ * applyChoi C (basis.get b))

/-- Modelled from the spec: the `kraus2choi` call boundary validates the
operator dimension — a dimension that is not a power of two raises
`ShapeError` immediately. -/
def kraus2choi_checked (n : ℕ) (Ks : List (Matrix (Fin n) (Fin n) ℂ)) :
    Except TomoError (Matrix (Fin n × Fin n) (Fin n × Fin n) ℂ) :=
  if isPow2 n then .ok (kraus2choi Ks) else .error .shapeError

/-- Modelled from the spec: the `choi2pauli_liouville` call boundary validates
the underlying operator dimension the same way. -/
noncomputable def choi2pauli_liouville_checked (n : ℕ)
    (basis : List (Matrix (Fin n) (Fin n) ℂ))
    (C : Matrix (Fin n × Fin n) (Fin n × Fin n) ℂ) :
    Except TomoError (Matrix (Fin basis.length) (Fin basis.length) ℂ) :=
  if isPow2 n then .ok (choi2pauli_liouville basis C) else .error .shapeError

/-- Backtracking-line-search constants of the Estimator.  The spec leaves the
numeric values open (section 9); they enter the model as parameters. -/
structure PGDBParams where
  maxIter : ℕ
  retryLimit : ℕ
  stepInit : ℝ
  growFactor : ℝ
  sigma : ℝ
  tol : ℝ
  streak : ℕ

/-- The Estimator's result record (spec section 3): Choi estimate, iteration
count, final objective value, convergence flag. -/
structure ProcessEstimate (d : ℕ) where
  estimate : SOp d
  iterations : ℕ
  objective : ℝ
  didConverge : Bool

/-- Modelled from the spec: steps (2)-(5) of one PGDB iteration — take a
gradient step scaled by the current step size, re-project through the
Physical Projector `proj` (passed as a function, its internal alternating
projection being modelled separately), evaluate the objective, and accept on
sufficient decrease (growing the step for the next iteration) or halve the
step size and retry, up to the retry limit.  `none` means the retry limit was
exhausted (the *stalled* terminal state). -/
noncomputable def backtrack {d : ℕ} (proj : SOp d → SOp d)
    (settings : List (Setting d)) (P : PGDBParams)
    (x : SOp d) (fx : ℝ) : ℝ → ℕ → Option (SOp d × ℝ × ℝ)
  | _, 0 => none
  | step, r + 1 =>
    if objective settings (proj (x - ((step : ℝ) : ℂ) • gradientM settings x))
        ≤ fx - P.sigma * step then
      some (proj (x - ((step : ℝ) : ℂ) • gradientM settings x),
        objective settings (proj (x - ((step : ℝ) : ℂ) • gradientM settings x)),
        P.growFactor * step)
    else backtrack proj settings P x fx (step / 2) r

/-- Streak counter for convergence: reset on a large improvement, incremented
when the objective improvement falls below tolerance. -/
noncomputable def nextCnt (P : PGDBParams) (drop : ℝ) (cnt : ℕ) : ℕ :=
  if drop < P.tol then cnt + 1 else 0

/-- Modelled from the spec: the PGDB iteration loop.  State is (current Choi
estimate, objective value, step size); the result is the list of accepted
states together with the convergence flag — `true` when the improvement
stayed below tolerance for `P.streak` consecutive iterations, `false` when
the iteration budget ran out or the line search stalled. -/
noncomputable def pgdbRun {d : ℕ} (proj : SOp d → SOp d)
    (settings : List (Setting d)) (P : PGDBParams) :
    ℕ → (SOp d × ℝ × ℝ) → ℕ → List (SOp d × ℝ × ℝ) × Bool
  | 0, _, _ => ([], false)
  | n + 1, st, cnt =>
    match backtrack proj settings P st.1 st.2.1 st.2.2 P.retryLimit with
    | none => ([], false)
    | some st2 =>
      if P.streak ≤ nextCnt P (st.2.1 - st2.2.1) cnt then ([st2], true)
      else
        (st2 :: (pgdbRun proj settings P n st2 (nextCnt P (st.2.1 - st2.2.1) cnt)).1,
          (pgdbRun proj settings P n st2 (nextCnt P (st.2.1 - st2.2.1) cnt)).2)

/-- Modelled from the spec: the maximally-mixed (identity-channel) Choi
matrix, the default initial iterate — the identity normalized to be
trace-preserving. -/
noncomputable def maximallyMixedChoi (d : ℕ) : SOp d := ((d : ℂ))⁻¹ • 1

/-- Run the Estimator from an explicit initial iterate and package the result
record. -/
noncomputable def pgdbFrom {d : ℕ} (proj : SOp d → SOp d)
    (settings : List (Setting d)) (P : PGDBParams) (x0 : SOp d) :
    ProcessEstimate d :=
  let f0 := objective settings x0
  let run := pgdbRun proj settings P P.maxIter (x0, f0, P.stepInit) 0
  { estimate := (run.1.getLastD (x0, f0, P.stepInit)).1,
    iterations := run.1.length,
    objective := (run.1.getLastD (x0, f0, P.stepInit)).2.1,
    didConverge := run.2 }

/-- Modelled from the spec: `pgdb_process_estimate` — zero settings raise
`EmptyExperimentError`; otherwise the loop starts from the caller's initial
state when supplied and from the maximally-mixed Choi matrix by default, and
always returns a result record (convergence reported only via its flag). -/
noncomputable def pgdb_process_estimate {d : ℕ} (proj : SOp d → SOp d)
    (settings : List (Setting d)) (P : PGDBParams) (init : Option (SOp d)) :
    Except TomoError (ProcessEstimate d) :=
  match settings with
  | [] => .error .emptyExperimentError
  | _ :: _ => .ok (pgdbFrom proj settings P (init.getD (maximallyMixedChoi d)))

/-- Concrete one-dimensional setting used in witnesses. -/
def trivialSetting : Setting 1 :=
  { prep := 1, meas := 1, expectation := 1, variance := 1 }

/-- Concrete backtracking parameters used in witnesses. -/
def testParams : PGDBParams :=
  { maxIter := 1, retryLimit := 1, stepInit := 1, growFactor := 1,
    sigma := 0, tol := 1, streak := 2 }

end Forest

namespace Forest

/-- A pyQuil program instruction, as far as `insert_noise` is concerned; `κ`
is the representation of a Kraus-operator list. -/
inductive Instr (κ : Type) where
  | defGate (name : String) (dim : ℕ)
  | defNoisyGate (name : String) (qubits : List ℕ) (kraus : κ)
  | gate (name : String) (qubits : List ℕ)
  deriving DecidableEq

/-- The heap of `Program` objects: object identity is a reference (a natural
number) and the store maps each reference to the program's instruction
list.  In-place mutation of a program is an update of the store at its
reference. -/
def Store (κ : Type) := ℕ → List (Instr κ)

/-- The three instructions appended by `insert_noise`
(src/examples/randomized_benchmarking_unitarity.ipynb): the `2^len(qubits)`
identity gate definition named `noise`, the noisy-gate definition carrying the
Kraus operators, and one invocation of the gate. -/
def noiseInstrs {κ : Type} (qubits : List ℕ) (kraus : κ) : List (Instr κ) :=
  [Instr.defGate ("noise") (2 ^ qubits.length),
   Instr.defNoisyGate ("noise") qubits kraus,
   Instr.gate ("noise") qubits]

/-- Mutate one program in place: append the three noise instructions to the
program stored at reference `r`. -/
def insertNoiseProgram {κ : Type} (qubits : List ℕ) (kraus : κ)
    (store : Store κ) (r : ℕ) : Store κ :=
  fun r2 => if r2 = r then store r2 ++ noiseInstrs qubits kraus else store r2

/-- `insert_noise` from the notebook: `for program in programs:` append the
noise-gate definition, the noisy-gate definition and the invocation to each
program (the Kraus list `kraus = noise(*noise_args)` is the same each time). -/
def insert_noise {κ : Type} (programs : List ℕ) (qubits : List ℕ) (kraus : κ)
    (store : Store κ) : Store κ :=
  programs.foldl (insertNoiseProgram qubits kraus) store

/-- One row of the RB dataframe: the `Sequence` cell holds references to its
`Program` objects; the remaining cells are opaque. -/
structure RBRow where
  sequence : List ℕ
  other : List String

/-- The RB dataframe: column labels and rows. -/
structure DataFrame where
  columns : List String
  rows : List RBRow

/-- `df.copy()`: a new `DataFrame` object with the same cells — a shallow
copy, so the `Sequence` cells still hold the same `Program` references. -/
def DataFrame.copy (df : DataFrame) : DataFrame :=
  { columns := df.columns, rows := df.rows }

/-- All program references appearing in the dataframe's `Sequence` column. -/
def DataFrame.allRefs (df : DataFrame) : List ℕ :=
  (df.rows.map RBRow.sequence).flatten

/-- `add_noise_to_sequences` from the notebook: copy the dataframe, then
`for seq in new_df["Sequence"].values: insert_noise(seq, qubits, noise, ...)`,
returning the copy; the program mutations live in the store. -/
def add_noise_to_sequences {κ : Type} (df : DataFrame) (store : Store κ)
    (qubits : List ℕ) (kraus : κ) : DataFrame × Store κ :=
  (df.copy,
    (df.copy.rows.map RBRow.sequence).foldl
      (fun st seq => insert_noise seq qubits kraus st) store)

/-- Concrete dataframe for the C10 witness: one row, two programs. -/
def c10Df : DataFrame :=
  { columns := [("Sequence")], rows := [{ sequence := [0, 1], other := [] }] }

/-- Concrete empty store for the C10 witness. -/
def c10Store : Store Unit := fun _ => []

end Forest

namespace Forest

/-- The trace-preserving projection is exact: the output partial trace of
`tpProj C` is the identity, for any `C`. -/
theorem ptr2_tpProj {d : ℕ} [NeZero d] (C : SOp d) : ptr2 (tpProj C) = 1 := by
  have hd : ((d : ℂ)) ≠ 0 := Nat.cast_ne_zero.mpr (NeZero.ne d)
  ext i k
  have hterm : ∀ j : Fin d, (tpProj C) (i, j) (k, j)
      = C (i, j) (k, j) - (d : ℂ)⁻¹ * ((ptr2 C) i k - (1 : Op d) i k) := by
    intro j
    simp [tpProj, embedIn, Matrix.sub_apply, Matrix.smul_apply, smul_eq_mul]
  show ∑ j, (tpProj C) (i, j) (k, j) = (1 : Op d) i k
  rw [Finset.sum_congr rfl fun j _ => hterm j, Finset.sum_sub_distrib,
    Finset.sum_const, Finset.card_univ, Fintype.card_fin, nsmul_eq_mul]
  have hS : (ptr2 C) i k = ∑ j, C (i, j) (k, j) := rfl
  rw [← hS]
  field_simp

/-- Outer products `v v†` are positive semidefinite. -/
theorem posSemidef_outer {d : ℕ} (v : Fin d × Fin d → ℂ) :
    (Matrix.vecMulVec v (star v)).PosSemidef := by
  have h : Matrix.vecMulVec v (star v) =
      Matrix.col Unit v * (Matrix.col Unit v)ᴴ := by
    rw [Matrix.vecMulVec_eq Unit, Matrix.conjTranspose_col]
  rw [h]
  exact Matrix.posSemidef_self_mul_conjTranspose _

/-- A nonnegative real multiple of a positive semidefinite matrix is positive
semidefinite. -/
theorem posSemidef_real_smul {d : ℕ} {M : SOp d} (h : M.PosSemidef)
    {r : ℝ} (hr : 0 ≤ r) : (((r : ℝ) : ℂ) • M).PosSemidef := by
  constructor
  · show (((r : ℝ) : ℂ) • M)ᴴ = ((r : ℝ) : ℂ) • M
    rw [Matrix.conjTranspose_smul, Complex.star_def, Complex.conj_ofReal, h.1]
  · intro x
    rw [Matrix.smul_mulVec_assoc, Matrix.dotProduct_smul, smul_eq_mul]
    exact mul_nonneg (Complex.zero_le_real.mpr hr) (h.2 x)

/-- The eigenvalue-clipping step always produces a positive semidefinite
matrix, whatever eigenpair list the external routine supplies. -/
theorem clipDecomp_posSemidef {d : ℕ} (dec : List (ℝ × (Fin d × Fin d → ℂ))) :
    (clipDecomp dec).PosSemidef := by
  unfold clipDecomp
  induction dec with
  | nil =>
    simp only [List.map_nil, List.sum_nil]
    exact Matrix.PosSemidef.zero
  | cons p l ih =>
    rw [List.map_cons, List.sum_cons]
    exact Matrix.PosSemidef.add
      (posSemidef_real_smul (posSemidef_outer p.2) (le_max_right _ _)) ih

/-- The TP projection fixes every matrix that is already trace-preserving. -/
theorem tpProj_eq_self {d : ℕ} {C : SOp d} (hTP : ptr2 C = 1) : tpProj C = C := by
  unfold tpProj
  rw [hTP, sub_self]
  have h0 : embedIn (0 : Op d) = 0 := by
    ext p q
    simp [embedIn]
  rw [h0, smul_zero, sub_zero]

/-- Clipping an eigendecomposition whose eigenvalues are all nonnegative
reassembles the matrix unchanged. -/
theorem clipDecomp_eq_of_nonneg {d : ℕ} {C : SOp d}
    {dec : List (ℝ × (Fin d × Fin d → ℂ))}
    (hdec : DecompOf C dec) (hpos : ∀ p ∈ dec, 0 ≤ p.1) :
    clipDecomp dec = C := by
  unfold clipDecomp
  rw [← hdec]
  congr 1
  refine List.map_congr_left ?_
  intro p hp
  rw [max_eq_left (hpos p hp)]

/-- The one-dimensional identity superoperator is trace-preserving. -/
theorem ptr2_one_dimOne : ptr2 (1 : SOp 1) = 1 := by
  ext i k
  show ∑ j, (1 : SOp 1) (i, j) (k, j) = (1 : Op 1) i k
  have hik : i = k := Subsingleton.elim i k
  subst hik
  simp [Matrix.one_apply]

/-- `oneEigList` is an eigendecomposition of the one-dimensional identity. -/
theorem decompOf_one_oneEigList : DecompOf (1 : SOp 1) oneEigList := by
  ext p q
  have hpq : p = q := Subsingleton.elim p q
  subst hpq
  simp [DecompOf, oneEigList, Matrix.vecMulVec_apply, Matrix.one_apply]

/-- The eigenvalues in `oneEigList` are nonnegative. -/
theorem oneEigList_nonneg : ∀ p ∈ oneEigList, (0 : ℝ) ≤ p.1 := by
  intro p hp
  simp [oneEigList] at hp
  rw [hp]
  norm_num

/-- Claim C4: the Physical Projector returns an already-physical Choi matrix —
trace-preserving (`ptr2 C = 1`) and PSD (certified by an eigendecomposition
with nonnegative eigenvalues) — unchanged, exactly, hence within tolerance:
both the TP half-pass and the eigenvalue-clipping half-pass fix `C`, so the
alternating loop converges immediately at `C`. -/
theorem projector_idempotent_on_physical {d : ℕ} [NeZero d] (C : SOp d)
    (dec : List (ℝ × (Fin d × Fin d → ℂ)))
    (hTP : ptr2 C = 1) (hdec : DecompOf C dec) (hpos : ∀ p ∈ dec, 0 ≤ p.1) :
    tpProj C = C ∧ clipDecomp dec = C :=
  ⟨tpProj_eq_self hTP, clipDecomp_eq_of_nonneg hdec hpos⟩

/-- Witness for C4 at `d = 1`, `C = 1` (the identity on one dimension, which
is trace-preserving and PSD). -/
theorem projector_idempotent_on_physical_witness :
    ptr2 (1 : SOp 1) = 1 ∧
    DecompOf (1 : SOp 1) oneEigList ∧
    (∀ p ∈ oneEigList, (0 : ℝ) ≤ p.1) ∧
    (tpProj (1 : SOp 1) = 1 ∧ clipDecomp oneEigList = 1) :=
  ⟨ptr2_one_dimOne, decompOf_one_oneEigList, oneEigList_nonneg,
    projector_idempotent_on_physical _ _ ptr2_one_dimOne decompOf_one_oneEigList
      oneEigList_nonneg⟩

/-- Claim C2 (amended): for every Hermitian input, a Physical Projector pass
(TP projection followed by eigenvalue clipping along the eigendecomposition
`dec` supplied by the external routine) outputs a Hermitian, positive
semidefinite matrix — all its eigenvalues are `≥ -1e-9` — and when the loop
has converged (the clipping step leaves the TP-projected iterate unchanged)
the output partial trace equals the identity exactly, hence within `1e-6`;
otherwise trace preservation is only approximate. -/
theorem projector_pass_hermitian_psd {d : ℕ} [NeZero d] (C : SOp d)
    (dec : List (ℝ × (Fin d × Fin d → ℂ)))
    (hC : C.IsHermitian) (hdec : DecompOf (tpProj C) dec) :
    ∃ hP : (clipDecomp dec).PosSemidef,
      (clipDecomp dec).IsHermitian ∧
      (∀ i, (-1e-9 : ℝ) ≤ hP.1.eigenvalues i) ∧
      (clipDecomp dec = tpProj C → ptr2 (clipDecomp dec) = 1) := by
  refine ⟨clipDecomp_posSemidef dec, (clipDecomp_posSemidef dec).1, ?_, ?_⟩
  · intro i
    have h0 := (clipDecomp_posSemidef dec).eigenvalues_nonneg i
    linarith
  · intro hfix
    rw [hfix, ptr2_tpProj]

/-- Witness for the amended C2 at `d = 1`, `C = 1`. -/
theorem projector_pass_hermitian_psd_witness :
    (1 : SOp 1).IsHermitian ∧
    DecompOf (tpProj (1 : SOp 1)) oneEigList ∧
    (∃ hP : (clipDecomp oneEigList).PosSemidef,
      (clipDecomp oneEigList).IsHermitian ∧
      (∀ i, (-1e-9 : ℝ) ≤ hP.1.eigenvalues i) ∧
      (clipDecomp oneEigList = tpProj (1 : SOp 1) →
        ptr2 (clipDecomp oneEigList) = 1)) := by
  have hC : (1 : SOp 1).IsHermitian := Matrix.isHermitian_one
  have hdec : DecompOf (tpProj (1 : SOp 1)) oneEigList := by
    rw [tpProj_eq_self ptr2_one_dimOne]
    exact decompOf_one_oneEigList
  exact ⟨hC, hdec, projector_pass_hermitian_psd _ _ hC hdec⟩

/-- Counterexample to C2 as stated: the Hermitian input `c2Input`
(diagonal `2, -1, 2, -1`, already trace-preserving) admits a projector pass —
TP projection, then clipping along its eigendecomposition `c2Dec` — whose
output has output-subsystem partial trace entry `2` in place of `1`, missing
the claimed `1e-6` tolerance; a finite iteration budget can end there. -/
theorem projector_tp_tolerance_counterexample :
    c2Input.IsHermitian ∧
    DecompOf (tpProj c2Input) c2Dec ∧
    (1e-6 : ℝ) < Complex.abs (ptr2 (clipDecomp c2Dec) 0 0 - 1) := by
  have hptr : ptr2 c2Input = 1 := by
    ext i k
    show ∑ j, c2Input (i, j) (k, j) = (1 : Op 2) i k
    rw [Fin.sum_univ_two]
    by_cases hik : i = k
    · subst hik
      simp only [c2Input, Matrix.of_apply, if_pos rfl, Matrix.one_apply_eq]
      norm_num
    · simp [c2Input, Matrix.one_apply, hik, Prod.ext_iff]
  refine ⟨?_, ?_, ?_⟩
  · show c2Inputᴴ = c2Input
    ext p q
    by_cases hpq : p = q
    · subst hpq
      simp only [Matrix.conjTranspose_apply, c2Input, Matrix.of_apply, if_pos rfl]
      split_ifs <;> simp
    · simp [Matrix.conjTranspose_apply, c2Input, hpq, Ne.symm hpq]
  · rw [tpProj_eq_self hptr]
    ext p q
    simp only [DecompOf, c2Dec, List.map_cons, List.map_nil, List.sum_cons,
      List.sum_nil, Matrix.add_apply, Matrix.zero_apply, Matrix.smul_apply,
      Matrix.vecMulVec_apply, Pi.star_apply, smul_eq_mul]
    fin_cases p <;> fin_cases q <;> simp [c2Input, Prod.ext_iff]
  · have hval : ptr2 (clipDecomp c2Dec) 0 0 = 2 := by
      show ∑ j, clipDecomp c2Dec (0, j) (0, j) = 2
      rw [Fin.sum_univ_two]
      simp only [clipDecomp, c2Dec, List.map_cons, List.map_nil, List.sum_cons,
        List.sum_nil, Matrix.add_apply, Matrix.zero_apply, Matrix.smul_apply,
        Matrix.vecMulVec_apply, Pi.star_apply, smul_eq_mul]
      norm_num [Prod.ext_iff]
    rw [hval]
    have h21 : ((2 : ℂ) - 1) = 1 := by norm_num
    rw [h21]
    simp only [map_one]
    norm_num

end Forest

namespace Forest

/-- Unfolding lemma: the Choi matrix of a Kraus list with head `K`. -/
theorem kraus2choi_cons {d : ℕ} (K : Op d) (Ks : List (Op d)) :
    kraus2choi (K :: Ks) =
      Matrix.vecMulVec (vec K) (star (vec K)) + kraus2choi Ks := by
  simp [kraus2choi]

/-- Scaling an outer product: `(s·v)(s·v)† = s² · v v†` for real `s`. -/
theorem vecMulVec_real_smul {d : ℕ} (s : ℝ) (v : Fin d × Fin d → ℂ) :
    Matrix.vecMulVec (((s : ℝ) : ℂ) • v) (star (((s : ℝ) : ℂ) • v)) =
      ((s ^ 2 : ℝ) : ℂ) • Matrix.vecMulVec v (star v) := by
  ext p q
  simp only [Matrix.vecMulVec_apply, Pi.star_apply, Pi.smul_apply, smul_eq_mul,
    Matrix.smul_apply, star_mul', Complex.star_def, Complex.conj_ofReal,
    Complex.ofReal_pow]
  ring

/-- The Choi matrix rebuilt from the Kraus operators of an eigenpair list is
the eigenpair list's weighted sum of eigenvector outer products. -/
theorem kraus2choi_of_forall₂ {d : ℕ}
    {dec : List (ℝ × (Fin d × Fin d → ℂ))} {Ks : List (Op d)}
    (h : List.Forall₂ KrausOfPair dec Ks) :
    kraus2choi Ks =
      (dec.map fun p => ((p.1 : ℝ) : ℂ) • Matrix.vecMulVec p.2 (star p.2)).sum := by
  induction h with
  | nil => rfl
  | @cons p K l₁ l₂ hpK _ ih =>
    obtain ⟨s, _, hs2, hK⟩ := hpK
    have hv : vec (unvec (((s : ℝ) : ℂ) • p.2)) = ((s : ℝ) : ℂ) • p.2 := rfl
    rw [kraus2choi_cons, ih, List.map_cons, List.sum_cons, hK, hv,
      vecMulVec_real_smul, hs2]

/-- Claim C1: for every valid Kraus set, `kraus_to_choi → choi_to_kraus →
kraus_to_choi` reproduces the first Choi matrix — exactly, in exact
arithmetic, hence within `1e-8` relative Frobenius error. -/
theorem kraus_choi_kraus_round_trip {d : ℕ} (Ks Ks' : List (Op d))
    (hvalid : (Ks.map fun K => Kᴴ * K).sum = 1)
    (h : IsChoi2KrausOutput (kraus2choi Ks) Ks') :
    kraus2choi Ks' = kraus2choi Ks := by
  obtain ⟨dec, hdec, hf⟩ := h
  rw [kraus2choi_of_forall₂ hf, hdec]

/-- Witness for C1 at `d = 1`, `Ks = [I]` (the identity channel). -/
theorem kraus_choi_kraus_round_trip_witness :
    ((([(1 : Op 1)]).map fun K => Kᴴ * K).sum = 1) ∧
    IsChoi2KrausOutput (kraus2choi [(1 : Op 1)]) [(1 : Op 1)] ∧
    kraus2choi [(1 : Op 1)] = kraus2choi [(1 : Op 1)] := by
  have hvalid : (([(1 : Op 1)]).map fun K => Kᴴ * K).sum = 1 := by simp
  have hout : IsChoi2KrausOutput (kraus2choi [(1 : Op 1)]) [(1 : Op 1)] := by
    refine ⟨[(1, fun _ => 1)], ?_, ?_⟩
    · ext p q
      simp [kraus2choi, DecompOf, Matrix.vecMulVec_apply, vec, Matrix.one_apply,
        Fin.fin_one_eq_zero p.1, Fin.fin_one_eq_zero p.2,
        Fin.fin_one_eq_zero q.1, Fin.fin_one_eq_zero q.2]
    · refine List.Forall₂.cons ⟨1, by norm_num, by norm_num, ?_⟩ List.Forall₂.nil
      ext i j
      simp [unvec, Matrix.one_apply, Fin.fin_one_eq_zero i, Fin.fin_one_eq_zero j]
  exact ⟨hvalid, hout, kraus_choi_kraus_round_trip _ _ hvalid hout⟩

end Forest

namespace Forest

/-- Claim C9: for `num_qubits ∈ {1, 2}` and `p ∈ [0, 1]`, the probability list
built by `depolarizing_noise` has exactly `4 ^ num_qubits` entries, its first
entry is `p + (1 - p) / 4 ^ num_qubits`, every other entry is
`(1 - p) / 4 ^ num_qubits`, and the entries sum exactly to 1. -/
theorem depolarizing_noise_probabilities_spec (n : ℕ) (p : ℚ)
    (hn : n = 1 ∨ n = 2) (hp0 : 0 ≤ p) (hp1 : p ≤ 1) :
    (depolarizing_noise_probabilities n p).length = 4 ^ n ∧
    (depolarizing_noise_probabilities n p).head? =
      some (p + (1 - p) / (4 ^ n : ℚ)) ∧
    (∀ q ∈ (depolarizing_noise_probabilities n p).tail,
      q = (1 - p) / (4 ^ n : ℚ)) ∧
    (depolarizing_noise_probabilities n p).sum = 1 := by
  have hpow : (0 : ℚ) < (4 ^ n : ℕ) := by positivity
  have hne : ((4 ^ n : ℕ) : ℚ) ≠ 0 := by exact_mod_cast hpow.ne'
  refine ⟨?_, ?_, ?_, ?_⟩
  · simp only [depolarizing_noise_probabilities, List.length_append,
      List.length_singleton, List.length_replicate]
    have h1 : 1 ≤ 4 ^ n := Nat.one_le_pow _ _ (by norm_num)
    omega
  · simp [depolarizing_noise_probabilities]
  · intro q hq
    simp only [depolarizing_noise_probabilities, List.tail_append,
      List.tail_cons, List.nil_append] at hq
    have := List.eq_of_mem_replicate hq
    simpa using this
  · simp only [depolarizing_noise_probabilities, List.sum_append,
      List.sum_cons, List.sum_nil, List.sum_replicate, smul_eq_mul]
    push_cast [hne]
    field_simp
    ring

/-- Witness for C9 at `n = 1`, `p = 1/2`. -/
theorem depolarizing_noise_probabilities_spec_witness :
    ((1 : ℕ) = 1 ∨ (1 : ℕ) = 2) ∧ (0 : ℚ) ≤ 1/2 ∧ (1/2 : ℚ) ≤ 1 ∧
    ((depolarizing_noise_probabilities 1 (1/2)).length = 4 ^ 1 ∧
     (depolarizing_noise_probabilities 1 (1/2)).head? =
       some (1/2 + (1 - 1/2) / (4 ^ 1 : ℚ)) ∧
     (∀ q ∈ (depolarizing_noise_probabilities 1 (1/2)).tail,
       q = (1 - 1/2) / (4 ^ 1 : ℚ)) ∧
     (depolarizing_noise_probabilities 1 (1/2)).sum = 1) :=
  ⟨Or.inl rfl, by norm_num, by norm_num,
    depolarizing_noise_probabilities_spec 1 (1/2) (Or.inl rfl)
      (by norm_num) (by norm_num)⟩

end Forest

namespace Forest

/-- Every `some` answer of the backtracking line search carries an objective
value no larger than the incoming one and a nonnegative next step size. -/
theorem backtrack_accept {d : ℕ} (proj : SOp d → SOp d)
    (settings : List (Setting d)) (P : PGDBParams)
    (x : SOp d) (fx : ℝ) (hσ : 0 ≤ P.sigma) (hγ : 0 ≤ P.growFactor) :
    ∀ (r : ℕ) (step : ℝ), 0 ≤ step →
      ∀ st2, backtrack proj settings P x fx step r = some st2 →
        st2.2.1 ≤ fx ∧ 0 ≤ st2.2.2 := by
  intro r
  induction r with
  | zero =>
    intro step _ st2 h
    simp [backtrack] at h
  | succ r ih =>
    intro step hstep st2 h
    simp only [backtrack] at h
    by_cases hacc : objective settings
        (proj (x - ((step : ℝ) : ℂ) • gradientM settings x)) ≤ fx - P.sigma * step
    · rw [if_pos hacc] at h
      obtain rfl := Option.some_inj.mp h
      constructor
      · have hms : 0 ≤ P.sigma * step := mul_nonneg hσ hstep
        simpa using le_trans hacc (by linarith)
      · exact mul_nonneg hγ hstep
    · rw [if_neg hacc] at h
      exact ih (step / 2) (by linarith) st2 h

/-- The accepted states of a PGDB run, prefixed with the starting state, have
non-increasing objective values, whenever the sufficient-decrease margin, the
step-growth factor and the incoming step size are nonnegative. -/
theorem pgdbRun_chain {d : ℕ} (proj : SOp d → SOp d)
    (settings : List (Setting d)) (P : PGDBParams)
    (hσ : 0 ≤ P.sigma) (hγ : 0 ≤ P.growFactor) :
    ∀ (n : ℕ) (st : SOp d × ℝ × ℝ), 0 ≤ st.2.2 → ∀ (cnt : ℕ),
      List.Chain' (fun a b => b.2.1 ≤ a.2.1)
        (st :: (pgdbRun proj settings P n st cnt).1) := by
  intro n
  induction n with
  | zero =>
    intro st _ cnt
    simp [pgdbRun]
  | succ n ih =>
    intro st hst cnt
    cases hbt : backtrack proj settings P st.1 st.2.1 st.2.2 P.retryLimit with
    | none =>
      simp [pgdbRun, hbt]
    | some st2 =>
      have hacc := backtrack_accept proj settings P st.1 st.2.1 hσ hγ
        P.retryLimit st.2.2 hst st2 hbt
      by_cases hcv : P.streak ≤ nextCnt P (st.2.1 - st2.2.1) cnt
      · simp only [pgdbRun, hbt, if_pos hcv]
        exact List.chain'_pair.mpr hacc.1
      · simp only [pgdbRun, hbt, if_neg hcv]
        exact List.chain'_cons.mpr
          ⟨hacc.1, ih st2 hacc.2 (nextCnt P (st.2.1 - st2.2.1) cnt)⟩

/-- Claim C3: in every run of the PGDB Estimator the sequence of accepted
objective values is non-increasing — whenever a candidate fails the
sufficient-decrease test the step size is halved and the iteration is retried
up to the retry limit, so no accepted iterate increases the objective. -/
theorem pgdb_objective_monotone {d : ℕ} (proj : SOp d → SOp d)
    (settings : List (Setting d)) (P : PGDBParams) (x0 : SOp d) (n cnt : ℕ)
    (hσ : 0 ≤ P.sigma) (hγ : 0 ≤ P.growFactor) (hs0 : 0 ≤ P.stepInit) :
    List.Chain' (fun a b => b.2.1 ≤ a.2.1)
      ((x0, objective settings x0, P.stepInit) ::
        (pgdbRun proj settings P n (x0, objective settings x0, P.stepInit) cnt).1) :=
  pgdbRun_chain proj settings P hσ hγ n _ hs0 cnt

/-- Witness for C3: a one-iteration run at `d = 1` with the identity as the
projector. -/
theorem pgdb_objective_monotone_witness :
    (0 : ℝ) ≤ testParams.sigma ∧ (0 : ℝ) ≤ testParams.growFactor ∧
    (0 : ℝ) ≤ testParams.stepInit ∧
    List.Chain' (fun a b => b.2.1 ≤ a.2.1)
      (((1 : SOp 1), objective [trivialSetting] 1, testParams.stepInit) ::
        (pgdbRun id [trivialSetting] testParams 1
          ((1 : SOp 1), objective [trivialSetting] 1, testParams.stepInit) 0).1) :=
  ⟨by norm_num [testParams], by norm_num [testParams], by norm_num [testParams],
    pgdb_objective_monotone id [trivialSetting] testParams 1 1 0
      (by norm_num [testParams]) (by norm_num [testParams])
      (by norm_num [testParams])⟩

/-- Along a non-increasing chain, the last element is a lower bound for every
element. -/
theorem chain_descent_getLastD {α : Type _} (g : α → ℝ) :
    ∀ (l : List α) (a : α), List.Chain' (fun x y => g y ≤ g x) (a :: l) →
      ∀ b ∈ a :: l, g (l.getLastD a) ≤ g b := by
  intro l
  induction l with
  | nil =>
    intro a _ b hb
    simp only [List.mem_singleton] at hb
    subst hb
    simp [List.getLastD]
  | cons c t ih =>
    intro a hchain b hb
    obtain ⟨hca, hct⟩ := List.chain'_cons.mp hchain
    rw [List.getLastD_cons]
    rcases List.mem_cons.mp hb with hb | hb
    · subst hb
      have hlast := ih c hct c (List.mem_cons_self c t)
      linarith
    · exact ih c hct b hb

/-- Claim C6: exhausting the iteration budget is non-fatal — for a nonempty
experiment the Estimator always returns a result record (`Except.ok`), its
convergence status is reported only through the `didConverge` flag of that
record, the estimate returned is the last accepted iterate (the best found,
the objective being non-increasing), and its objective is no worse than the
starting point's. -/
theorem pgdb_budget_exhaustion_nonfatal {d : ℕ} (proj : SOp d → SOp d)
    (settings : List (Setting d)) (P : PGDBParams) (init : Option (SOp d))
    (hne : settings ≠ []) (hσ : 0 ≤ P.sigma) (hγ : 0 ≤ P.growFactor)
    (hs0 : 0 ≤ P.stepInit) :
    ∃ est : ProcessEstimate d,
      pgdb_process_estimate proj settings P init = .ok est ∧
      est.didConverge = (pgdbRun proj settings P P.maxIter
        (init.getD (maximallyMixedChoi d),
          objective settings (init.getD (maximallyMixedChoi d)), P.stepInit) 0).2 ∧
      est.estimate = ((pgdbRun proj settings P P.maxIter
        (init.getD (maximallyMixedChoi d),
          objective settings (init.getD (maximallyMixedChoi d)), P.stepInit) 0).1.getLastD
        (init.getD (maximallyMixedChoi d),
          objective settings (init.getD (maximallyMixedChoi d)), P.stepInit)).1 ∧
      est.objective ≤ objective settings (init.getD (maximallyMixedChoi d)) := by
  cases settings with
  | nil => exact absurd rfl hne
  | cons s ss =>
    refine ⟨pgdbFrom proj (s :: ss) P (init.getD (maximallyMixedChoi d)),
      rfl, rfl, rfl, ?_⟩
    have hchain := pgdbRun_chain proj (s :: ss) P hσ hγ P.maxIter
      (init.getD (maximallyMixedChoi d),
        objective (s :: ss) (init.getD (maximallyMixedChoi d)), P.stepInit) hs0 0
    exact chain_descent_getLastD (fun st : SOp d × ℝ × ℝ => st.2.1) _ _ hchain _
      (List.mem_cons_self _ _)

/-- Witness for C6 at `d = 1` with a singleton experiment. -/
theorem pgdb_budget_exhaustion_nonfatal_witness :
    ([trivialSetting] ≠ []) ∧ (0 : ℝ) ≤ testParams.sigma ∧
    (0 : ℝ) ≤ testParams.growFactor ∧ (0 : ℝ) ≤ testParams.stepInit ∧
    (∃ est : ProcessEstimate 1,
      pgdb_process_estimate id [trivialSetting] testParams none = .ok est ∧
      est.didConverge = (pgdbRun id [trivialSetting] testParams
        testParams.maxIter
        ((none : Option (SOp 1)).getD (maximallyMixedChoi 1),
          objective [trivialSetting]
            ((none : Option (SOp 1)).getD (maximallyMixedChoi 1)),
          testParams.stepInit) 0).2 ∧
      est.estimate = ((pgdbRun id [trivialSetting] testParams
        testParams.maxIter
        ((none : Option (SOp 1)).getD (maximallyMixedChoi 1),
          objective [trivialSetting]
            ((none : Option (SOp 1)).getD (maximallyMixedChoi 1)),
          testParams.stepInit) 0).1.getLastD
        ((none : Option (SOp 1)).getD (maximallyMixedChoi 1),
          objective [trivialSetting]
            ((none : Option (SOp 1)).getD (maximallyMixedChoi 1)),
          testParams.stepInit)).1 ∧
      est.objective ≤ objective [trivialSetting]
        ((none : Option (SOp 1)).getD (maximallyMixedChoi 1))) :=
  ⟨by simp, by norm_num [testParams], by norm_num [testParams],
    by norm_num [testParams],
    pgdb_budget_exhaustion_nonfatal id [trivialSetting] testParams none
      (by simp) (by norm_num [testParams]) (by norm_num [testParams])
      (by norm_num [testParams])⟩

/-- Claim C7: when the caller supplies no initial guess the PGDB iteration
starts from the maximally-mixed (identity-channel) Choi matrix; when an
initial state is supplied, that state is used instead. -/
theorem pgdb_initial_state_default {d : ℕ} (proj : SOp d → SOp d)
    (settings : List (Setting d)) (P : PGDBParams) (hne : settings ≠ []) :
    pgdb_process_estimate proj settings P none =
      .ok (pgdbFrom proj settings P (maximallyMixedChoi d)) ∧
    ∀ x0 : SOp d, pgdb_process_estimate proj settings P (some x0) =
      .ok (pgdbFrom proj settings P x0) := by
  cases settings with
  | nil => exact absurd rfl hne
  | cons s ss => exact ⟨rfl, fun x0 => rfl⟩

/-- Witness for C7 at `d = 1` with a singleton experiment. -/
theorem pgdb_initial_state_default_witness :
    ([trivialSetting] ≠ []) ∧
    (pgdb_process_estimate id [trivialSetting] testParams none =
      .ok (pgdbFrom id [trivialSetting] testParams (maximallyMixedChoi 1)) ∧
    ∀ x0 : SOp 1, pgdb_process_estimate id [trivialSetting] testParams (some x0) =
      .ok (pgdbFrom id [trivialSetting] testParams x0)) :=
  ⟨by simp,
    pgdb_initial_state_default id [trivialSetting] testParams (by simp)⟩

/-- Claim C5: the Linear Observation Model raises `EmptyExperimentError` on
zero settings (and succeeds on any nonempty experiment), and the modelled
Representation Converter boundaries raise `ShapeError` immediately when the
operator dimension is not a power of two — valid dimensions are never
coerced into errors, invalid ones never silently accepted. -/
theorem error_boundary_immediate {d n : ℕ} (settings : List (Setting d))
    (Ks : List (Matrix (Fin n) (Fin n) ℂ))
    (basis : List (Matrix (Fin n) (Fin n) ℂ))
    (C : Matrix (Fin n × Fin n) (Fin n × Fin n) ℂ)
    (hn : isPow2 n = false) (hne : settings ≠ []) :
    buildObservationModel ([] : List (Setting d)) = .error .emptyExperimentError ∧
    (∃ M, buildObservationModel settings = .ok M) ∧
    kraus2choi_checked n Ks = .error .shapeError ∧
    choi2pauli_liouville_checked n basis C = .error .shapeError ∧
    ∀ (m : ℕ) (Ks2 : List (Matrix (Fin m) (Fin m) ℂ)), isPow2 m = true →
      kraus2choi_checked m Ks2 = .ok (kraus2choi Ks2) := by
  refine ⟨rfl, ?_, ?_, ?_, ?_⟩
  · cases settings with
    | nil => exact absurd rfl hne
    | cons s ss => exact ⟨⟨s :: ss, (s :: ss).map settingFunctional⟩, rfl⟩
  · simp [kraus2choi_checked, hn]
  · simp [choi2pauli_liouville_checked, hn]
  · intro m Ks2 hm
    simp [kraus2choi_checked, hm]

/-- Witness for C5 at dimension `3` (not a power of two) and a singleton
experiment. -/
theorem error_boundary_immediate_witness :
    isPow2 3 = false ∧ ([trivialSetting] ≠ []) ∧
    (buildObservationModel ([] : List (Setting 1)) = .error .emptyExperimentError ∧
    (∃ M, buildObservationModel [trivialSetting] = .ok M) ∧
    kraus2choi_checked 3 [] = .error .shapeError ∧
    choi2pauli_liouville_checked 3 [] 0 = .error .shapeError ∧
    ∀ (m : ℕ) (Ks2 : List (Matrix (Fin m) (Fin m) ℂ)), isPow2 m = true →
      kraus2choi_checked m Ks2 = .ok (kraus2choi Ks2)) :=
  ⟨by decide, by simp,
    error_boundary_immediate [trivialSetting] [] [] 0 (by decide) (by simp)⟩

end Forest

namespace Forest

/-- Folding the per-program noise insertion over a duplicate-free reference
list appends the three noise instructions to exactly the listed programs and
leaves every other program unchanged. -/
theorem insert_noise_foldl_spec {κ : Type} (qubits : List ℕ) (kraus : κ) :
    ∀ (l : List ℕ) (store : Store κ), l.Nodup →
      (∀ r ∈ l, l.foldl (insertNoiseProgram qubits kraus) store r =
        store r ++ noiseInstrs qubits kraus) ∧
      (∀ r, r ∉ l →
        l.foldl (insertNoiseProgram qubits kraus) store r = store r) := by
  intro l
  induction l with
  | nil =>
    intro store _
    exact ⟨fun r hr => absurd hr (List.not_mem_nil r), fun r _ => rfl⟩
  | cons a t ih =>
    intro store hnd
    obtain ⟨ha, ht⟩ := List.nodup_cons.mp hnd
    constructor
    · intro r hr
      rw [List.foldl_cons]
      rcases List.mem_cons.mp hr with hr | hr
      · subst hr
        rw [(ih _ ht).2 r ha]
        simp [insertNoiseProgram]
      · rw [(ih _ ht).1 r hr]
        have hra : r ≠ a := fun h => ha (h ▸ hr)
        simp [insertNoiseProgram, hra]
    · intro r hr
      rw [List.foldl_cons]
      have hr1 : r ≠ a := fun h => hr (h ▸ List.mem_cons_self a t)
      have hr2 : r ∉ t := fun h => hr (List.mem_cons_of_mem a h)
      rw [(ih _ ht).2 r hr2]
      simp [insertNoiseProgram, hr1]

/-- Folding a fold over the chunks equals one fold over the flattened list. -/
theorem foldl_foldl_flatten {α β : Type _} (f : β → α → β) :
    ∀ (L : List (List α)) (b : β),
      L.foldl (fun acc l => l.foldl f acc) b = L.flatten.foldl f b := by
  intro L
  induction L with
  | nil => intro b; rfl
  | cons l t ih =>
    intro b
    rw [List.foldl_cons, List.flatten_cons, List.foldl_append, ih]

/-- The store produced by `add_noise_to_sequences` is the fold of the
per-program insertion over all references of the dataframe. -/
theorem add_noise_store_eq {κ : Type} (df : DataFrame) (store : Store κ)
    (qubits : List ℕ) (kraus : κ) :
    (add_noise_to_sequences df store qubits kraus).2 =
      df.allRefs.foldl (insertNoiseProgram qubits kraus) store := by
  show (df.copy.rows.map RBRow.sequence).foldl
      (fun st seq => insert_noise seq qubits kraus st) store = _
  unfold DataFrame.allRefs DataFrame.copy insert_noise
  exact foldl_foldl_flatten _ _ _

/-- Claim C10: `add_noise_to_sequences` returns a new `DataFrame` value that
is a shallow copy — no row or column added or removed, and the `Sequence`
cells hold the very same program references — while `insert_noise` mutates
each referenced program in place in the store, appending exactly one `noise`
gate definition (the `2^len(qubits)` identity), one noisy-gate definition and
one invocation; unreferenced programs are untouched, and because the
references are shared, the caller's original dataframe sees the mutations. -/
theorem add_noise_to_sequences_spec {κ : Type} (df : DataFrame)
    (store : Store κ) (qubits : List ℕ) (kraus : κ)
    (hnodup : df.allRefs.Nodup) :
    (add_noise_to_sequences df store qubits kraus).1.columns = df.columns ∧
    (add_noise_to_sequences df store qubits kraus).1.rows = df.rows ∧
    (∀ r ∈ df.allRefs,
      (add_noise_to_sequences df store qubits kraus).2 r =
        store r ++ noiseInstrs qubits kraus) ∧
    (∀ r, r ∉ df.allRefs →
      (add_noise_to_sequences df store qubits kraus).2 r = store r) := by
  have hstore := add_noise_store_eq df store qubits kraus
  have hspec := insert_noise_foldl_spec qubits kraus df.allRefs store hnodup
  refine ⟨rfl, rfl, ?_, ?_⟩
  · intro r hr
    rw [hstore]
    exact hspec.1 r hr
  · intro r hr
    rw [hstore]
    exact hspec.2 r hr

/-- Witness for C10: one row with two distinct programs, empty store. -/
theorem add_noise_to_sequences_spec_witness :
    c10Df.allRefs.Nodup ∧
    ((add_noise_to_sequences c10Df c10Store [0] ()).1.columns = c10Df.columns ∧
     (add_noise_to_sequences c10Df c10Store [0] ()).1.rows = c10Df.rows ∧
     (∀ r ∈ c10Df.allRefs,
       (add_noise_to_sequences c10Df c10Store [0] ()).2 r =
         c10Store r ++ noiseInstrs [0] ()) ∧
     (∀ r, r ∉ c10Df.allRefs →
       (add_noise_to_sequences c10Df c10Store [0] ()).2 r = c10Store r)) :=
  ⟨by decide, add_noise_to_sequences_spec c10Df c10Store [0] () (by decide)⟩

end Forest
